import Mathlib

/-!
Shallow embedding of the `orderbook-server` aggregation core
(`src/core.rs`, `src/aggregator.rs`, `src/service.rs`, `src/bitstamp.rs`,
`src/binance.rs`).

Modelling conventions, fixed once for the whole file:

* `rust_decimal::Decimal` prices and amounts are modelled as `Rat`:
  the Rust type has exact decimal equality and a total order, which is
  all the aggregation code uses.
* `&'static str` exchange codes are modelled as `String`.
* `HashMap<&'static str, ExchangeLevel>` (the per-price exchange map of
  `AggregateLevel`) is modelled canonically as a list of `ExchangeLevel`
  strictly sorted by `exchange_code`: Rust `HashMap` equality is
  order-independent, so a canonical key-sorted representation gives the
  same equality while keeping `DecidableEq`.  `insert` replaces the entry
  with the same key, `remove` deletes it, exactly as in the Rust map.
* Rust panics (`assert!`, `unwrap`) are modelled as `Except.error`;
  normal returns are `Except.ok`.
* The imperative cursor `current_index` of
  `AggregateBookSideUpdateStrategy` (aggregator.rs:204-276) is
  represented as a zipper: the side's `data` vector is split as
  `done ++ todo` with `current_index = done.length`.  Every Rust
  operation maps one-to-one: `current_index == side.len()` is
  `todo = []`, `side[current_index]` is the head of `todo`,
  `Vec::insert`/merge at the cursor followed by `current_index += 1`
  moves one element onto `done`, and one iteration of the removal
  `while` loop (aggregator.rs:265-271) followed by the tail-recursive
  retry `self.apply(side, level_update)` is the last `applyStep` case.
-/

/-- `Ranking` from aggregator.rs:15-20: ordering discipline of a book side. -/
inductive Ranking where
  | LessFirst : Ranking
  | GreaterFirst : Ranking
deriving DecidableEq, Repr

/-- `AggregateBookSide::is_before` (aggregator.rs:160-165), parameterised by
the side's `ordering` member. -/
def Ranking.isBefore : Ranking → Rat → Rat → Bool
  | .LessFirst, a, b => decide (a < b)
  | .GreaterFirst, a, b => decide (b < a)

/-- `ExchangeLevel` from core.rs:33-40: one price level of one exchange. -/
structure ExchangeLevel where
  exchange_code : String
  price : Rat
  amount : Rat
deriving DecidableEq, Repr, Inhabited

/-- `BookUpdate` from core.rs:55-62: a full snapshot from one exchange. -/
structure BookUpdate where
  exchange_code : String
  bids : List ExchangeLevel
  asks : List ExchangeLevel
deriving DecidableEq, Repr

/-- `NUM_LEVELS` from core.rs:7. -/
def NUM_LEVELS : Nat := 10

/-- Canonical model of `HashMap::insert(level.exchange_code, level)`
(aggregator.rs:326): replace the entry with the same exchange code, keeping
the list strictly sorted by code. -/
def mapInsert (u : ExchangeLevel) : List ExchangeLevel → List ExchangeLevel
  | [] => [u]
  | x :: rest =>
    if u.exchange_code < x.exchange_code then u :: x :: rest
    else if u.exchange_code = x.exchange_code then u :: rest
    else x :: mapInsert u rest

/-- Canonical model of `HashMap::remove(exchange_code)` (aggregator.rs:335). -/
def mapRemove (code : String) (m : List ExchangeLevel) : List ExchangeLevel :=
  m.filter (fun x => x.exchange_code != code)

/-- `AggregateLevel` from aggregator.rs:281-286: a price plus the map from
exchange code to that exchange's level at this price. -/
structure AggregateLevel where
  price : Rat
  exchange_levels : List ExchangeLevel
deriving DecidableEq, Repr, Inhabited

/-- `AggregateLevel::from_level` (aggregator.rs:299-304). -/
def AggregateLevel.from_level (u : ExchangeLevel) : AggregateLevel :=
  ⟨u.price, [u]⟩

/-- `AggregateLevel::update` (aggregator.rs:324-327).  The Rust method also
asserts `self.price == level.price`; its only caller inside the update
algorithm (aggregator.rs:261) is guarded by `level_update.price == price`,
so the assertion never fires there and is not modelled. -/
def AggregateLevel.update (t : AggregateLevel) (u : ExchangeLevel) : AggregateLevel :=
  ⟨t.price, mapInsert u t.exchange_levels⟩

/-- `AggregateLevel::remove` (aggregator.rs:334-336). -/
def AggregateLevel.remove (t : AggregateLevel) (code : String) : AggregateLevel :=
  ⟨t.price, mapRemove code t.exchange_levels⟩

/-- Stable insertion step of the descending-by-amount sort used by
`levels_by_amount`: an element moves past `y` only when strictly smaller,
so equal amounts keep their relative order. -/
def insertByAmountDesc (x : ExchangeLevel) : List ExchangeLevel → List ExchangeLevel
  | [] => [x]
  | y :: ys => if x.amount < y.amount then y :: insertByAmountDesc x ys else x :: y :: ys

/-- Stable sort by amount, descending. -/
def sortByAmountDesc : List ExchangeLevel → List ExchangeLevel
  | [] => []
  | x :: xs => insertByAmountDesc x (sortByAmountDesc xs)

/-- `AggregateLevel::levels_by_amount` (aggregator.rs:353-357):
`self.exchange_levels.values()` sorted by amount descending with the stable
`sort_by`.  The Rust `values()` iteration order is unspecified; the model
iterates the canonical code-sorted entries, one of the admissible orders,
and applies the same stable descending sort. -/
def AggregateLevel.levels_by_amount (t : AggregateLevel) : List ExchangeLevel :=
  sortByAmountDesc t.exchange_levels

/-- `AggregateBookSide` from aggregator.rs:80-87. -/
structure AggregateBookSide where
  ordering : Ranking
  max_levels : Nat
  data : List AggregateLevel
deriving DecidableEq, Repr

/-- Loop body of `AggregateBookSide::best_levels` (aggregator.rs:142-157):
walk the aggregate levels in side order, and from each take up to the
remaining budget of its amount-sorted exchange levels, stopping when the
budget `levels_to_add` reaches zero.  (The Rust `is_empty` guard only skips
the loop for an empty vector, which the `[]` case covers.) -/
def bestLevelsAux : List AggregateLevel → Nat → List ExchangeLevel
  | [], _ => []
  | t :: rest, n =>
    let pls := t.levels_by_amount
    let k := min pls.length n
    pls.take k ++ (if n - k = 0 then [] else bestLevelsAux rest (n - k))

/-- `AggregateBookSide::best_levels` (aggregator.rs:142-157). -/
def AggregateBookSide.best_levels (side : AggregateBookSide) : List ExchangeLevel :=
  bestLevelsAux side.data side.max_levels

/-- Panic message of the ordering assertion in
`AggregateBookSideUpdateStrategy::apply` (aggregator.rs:239-243). -/
def orderingViolation : String := "Update price is before previous update price"

/-- `AggregateBookSideUpdateStrategy::apply` (aggregator.rs:236-275), with
the ordering assertion already checked by the caller loop (it compares the
update against `prev_update_price` only, never against the side).  The
cursor is the `done`/`todo` zipper described in the file header.  Returns
the new zipper and the `bool` returned by `apply` (`false` means the update
loop stops).  The last case is one iteration of the removal `while` loop
followed by the recursive retry: at the retried cursor position the three
price comparisons are re-examined exactly as the Rust code does. -/
def applyStep (r : Ranking) (maxl : Nat) (u : ExchangeLevel) :
    List AggregateLevel → List AggregateLevel → List AggregateLevel × List AggregateLevel × Bool
  | done, [] =>
    if maxl ≤ done.length then (done, [], false)
    else (done ++ [AggregateLevel.from_level u], [], true)
  | done, t :: ts =>
    if r.isBefore u.price t.price then (done ++ [AggregateLevel.from_level u], t :: ts, true)
    else if u.price = t.price then (done ++ [t.update u], ts, true)
    else applyStep r maxl u (done ++ [t.remove u.exchange_code]) ts

/-- The `for level_update in side_update` loop of
`AggregateBookSide::update_side` (aggregator.rs:178-184) together with the
ordering assertion at the top of `apply` (aggregator.rs:238-244):
`prev` is `prev_update_price`.  A `false` return from `apply` breaks the
loop, leaving the side as it stands. -/
def updateSideData (r : Ranking) (maxl : Nat) :
    List AggregateLevel → List AggregateLevel → Option Rat → List ExchangeLevel →
    Except String (List AggregateLevel)
  | done, todo, _, [] => .ok (done ++ todo)
  | done, todo, prev, u :: us =>
    if (match prev with | some q => r.isBefore u.price q | none => false) then
      .error orderingViolation
    else
      match applyStep r maxl u done todo with
      | (done1, todo1, true) => updateSideData r maxl done1 todo1 (some u.price) us
      | (done1, todo1, false) => .ok (done1 ++ todo1)

/-- `AggregateBookSide::update_side` (aggregator.rs:178-186): run the update
loop from cursor 0 with no previous update price, then
`retain(|level| !level.exchange_levels.is_empty())`. -/
def AggregateBookSide.update_side (side : AggregateBookSide) (upd : List ExchangeLevel) :
    Except String AggregateBookSide :=
  (updateSideData side.ordering side.max_levels [] side.data none upd).map
    (fun d => ⟨side.ordering, side.max_levels, d.filter (fun l => !l.exchange_levels.isEmpty)⟩)

/-- `AggregateBook` from aggregator.rs:24-27. -/
structure AggregateBook where
  bids : AggregateBookSide
  asks : AggregateBookSide
deriving DecidableEq, Repr

/-- `AggregateBook::new` (aggregator.rs:39-44). -/
def AggregateBook.new (max_levels : Nat) : AggregateBook :=
  ⟨⟨Ranking.GreaterFirst, max_levels, []⟩, ⟨Ranking.LessFirst, max_levels, []⟩⟩

/-- `AggregateBook::best_bids` (aggregator.rs:51-53). -/
def AggregateBook.best_bids (book : AggregateBook) : List ExchangeLevel :=
  book.bids.best_levels

/-- `AggregateBook::best_asks` (aggregator.rs:60-62). -/
def AggregateBook.best_asks (book : AggregateBook) : List ExchangeLevel :=
  book.asks.best_levels

/-- `AggregateBook::update` (aggregator.rs:71-74): update bids, then asks;
a panic in the bids update propagates before asks are touched. -/
def AggregateBook.update (book : AggregateBook) (bu : BookUpdate) :
    Except String AggregateBook := do
  let bids ← book.bids.update_side bu.bids
  let asks ← book.asks.update_side bu.asks
  pure ⟨bids, asks⟩

/-- `Level` of the generated `orderbook` protobuf (summary wire level), as
used by `From<&ExchangeLevel> for Level` in service.rs:16-24.  The wire
`f64` fields are modelled as exact `Rat`: `Decimal::to_f64` on the values
involved is total, and no claim in scope depends on rounding. -/
structure SummaryLevel where
  exchange : String
  price : Rat
  amount : Rat
deriving DecidableEq, Repr

/-- `Summary` of the generated `orderbook` protobuf.  The `f64` spread is
modelled as `Option Rat`, with `none` standing for the floating-point NaN
produced by `f64::NAN` in service.rs:136 (a finite difference of decimals is
never NaN, cf. `to_f64().unwrap_or(f64::NAN)` whose `Decimal` conversion is
total). -/
structure Summary where
  spread : Option Rat
  bids : List SummaryLevel
  asks : List SummaryLevel
deriving DecidableEq, Repr

/-- `From<&ExchangeLevel> for Level` (service.rs:16-24). -/
def ExchangeLevel.toSummaryLevel (l : ExchangeLevel) : SummaryLevel :=
  ⟨l.exchange_code, l.price, l.amount⟩

/-- `BookSummaryService::make_summary` (service.rs:130-141). -/
def make_summary (aggregate_book : AggregateBook) : Summary :=
  let best_bids := aggregate_book.best_bids
  let best_asks := aggregate_book.best_asks
  let bids := best_bids.map ExchangeLevel.toSummaryLevel
  let asks := best_asks.map ExchangeLevel.toSummaryLevel
  let spread :=
    if best_bids.isEmpty || best_asks.isEmpty then none
    else some ((best_asks.headD default).price - (best_bids.headD default).price)
  ⟨spread, bids, asks⟩

/-!  Exchange adapter decoders.

`serde_json` and `rust_decimal`'s string parser are external crates; they
are modelled at the boundary visible to this repository's code:

* `parseDecimal` models `Decimal::from_str`: optional sign, decimal
  digits, optional fraction part, anything else is `none`.
* A `BitstampFrame` is the outcome of the two `serde_json::from_str`
  attempts of `read_bitstamp_book_update` (bitstamp.rs:17-38) on the raw
  text: a structurally matching book-update frame (string pairs), else a
  structurally matching event frame, else unparsable.
-/

/-- Digit value of a character, `none` for a non-digit. -/
def digitVal (c : Char) : Option Nat :=
  if c.isDigit then some (c.toNat - 48) else none

/-- Accumulate decimal digits; fails on any non-digit. -/
def parseNatAux : List Char → Nat → Option Nat
  | [], acc => some acc
  | c :: cs, acc =>
    match digitVal c with
    | some d => parseNatAux cs (acc * 10 + d)
    | none => none

/-- Split a character list at the first dot. -/
def splitAtDot : List Char → List Char × Option (List Char)
  | [] => ([], none)
  | c :: rest =>
    if c = '.' then ([], some rest)
    else
      let (a, b) := splitAtDot rest
      (c :: a, b)

/-- Model of `rust_decimal::Decimal::from_str`: `[+|-] digits [. digits]`
with at least one digit; any other shape is a parse failure.  (The crate's
extra conveniences — underscore separators, precision clamping — do not
matter for any input this file evaluates.) -/
def parseDecimal (s : String) : Option Rat :=
  let cs := s.toList
  let signed : Bool × List Char :=
    match cs with
    | '-' :: rest => (true, rest)
    | '+' :: rest => (false, rest)
    | _ => (false, cs)
  let body := splitAtDot signed.2
  match body.2 with
  | none =>
    if body.1 = [] then none
    else (parseNatAux body.1 0).map (fun ip =>
      if signed.1 then -(ip : Rat) else (ip : Rat))
  | some fr =>
    if body.1 = [] ∧ fr = [] then none
    else
      match parseNatAux body.1 0, parseNatAux fr 0 with
      | some ip, some f =>
        let v : Rat := (ip : Rat) + (f : Rat) / ((10 : Rat) ^ fr.length)
        some (if signed.1 then -v else v)
      | _, _ => none

/-- `ExchangeProtocol` from exchange.rs:24-27. -/
inductive ExchangeProtocol (T : Type) where
  | Data : T → ExchangeProtocol T
  | ReconnectionRequest : ExchangeProtocol T
deriving DecidableEq, Repr

/-- `BitstampPair` (bitstamp.rs:54-55): a raw `[price, amount]` string pair. -/
structure BitstampPair where
  price : String
  amount : String
deriving DecidableEq, Repr

/-- `BitstampBookUpdate`/`BitstampBookUpdateData` (bitstamp.rs:57-66),
flattened: the `data` object's bid and ask pair arrays. -/
structure BitstampBookUpdateRaw where
  bids : List BitstampPair
  asks : List BitstampPair
deriving DecidableEq, Repr

/-- Outcome of the `serde_json` parse attempts on one raw text frame. -/
inductive BitstampFrame where
  | bookUpdate : BitstampBookUpdateRaw → BitstampFrame
  | event : String → BitstampFrame
  | unparsable : BitstampFrame
deriving DecidableEq, Repr

/-- Panic message standing for `Option::unwrap` on a failed
`Decimal::from_str` (bitstamp.rs:78-79, binance.rs:30-31). -/
def decimalUnwrapPanic : String := "panicked: Decimal::from_str unwrap on malformed number"

/-- `From<BitstampPair> for ExchangeLevel` (bitstamp.rs:73-82): the two
`Decimal::from_str(..).unwrap()` calls panic on a malformed number. -/
def bitstampPairToLevel (p : BitstampPair) : Except String ExchangeLevel :=
  match parseDecimal p.price, parseDecimal p.amount with
  | some pr, some am => .ok ⟨"bitstamp", pr, am⟩
  | _, _ => .error decimalUnwrapPanic

/-- Left-to-right conversion of raw pairs, stopping at the first panic:
models the `map(..).collect()` over the fallible `From` conversions. -/
def traverseLevels {β : Type} (f : BitstampPair → Except String β) :
    List BitstampPair → Except String (List β)
  | [] => .ok []
  | p :: ps =>
    match f p with
    | .error e => .error e
    | .ok b =>
      match traverseLevels f ps with
      | .error e => .error e
      | .ok bs => .ok (b :: bs)

/-- `From<BitstampBookUpdate> for BookUpdate` (bitstamp.rs:84-92):
`take(NUM_LEVELS)` then convert each pair. -/
def bitstampToBookUpdate (raw : BitstampBookUpdateRaw) : Except String BookUpdate := do
  let bids ← traverseLevels bitstampPairToLevel (raw.bids.take NUM_LEVELS)
  let asks ← traverseLevels bitstampPairToLevel (raw.asks.take NUM_LEVELS)
  pure ⟨"bitstamp", bids, asks⟩

/-- The Bitstamp reconnect event name (bitstamp.rs:26). -/
def reconnectEventName : String := "bts:request_reconnect"

/-- `read_bitstamp_book_update` (bitstamp.rs:17-38) on the outcome of the
serde parse attempts: a book-update frame is converted (panicking on
malformed numbers), a `bts:request_reconnect` event yields a reconnection
request, any other event or unparsable text yields `none`. -/
def read_bitstamp_book_update (f : BitstampFrame) :
    Except String (Option (ExchangeProtocol BookUpdate)) :=
  match f with
  | .bookUpdate raw => (bitstampToBookUpdate raw).map (fun bu => some (.Data bu))
  | .event e => .ok (if e = reconnectEventName then some .ReconnectionRequest else none)
  | .unparsable => .ok none

/-- `Level` from the binance.rs revision in this tree (binance.rs:25-34):
same shape as `ExchangeLevel`, field named `exchange`. -/
structure BinanceLevel where
  exchange : String
  price : Rat
  amount : Rat
deriving DecidableEq, Repr

/-- `BinanceBookUpdate` (binance.rs:17-23): raw string pairs plus
`last_update_id`. -/
structure BinanceBookUpdateRaw where
  last_update_id : Nat
  bids : List BitstampPair
  asks : List BitstampPair
deriving DecidableEq, Repr

/-- The `BookUpdate` type of the binance.rs revision in this tree
(`exchange`, `timestamp`, bid and ask levels). -/
structure BinanceBookUpdateOut where
  exchange : String
  timestamp : Nat
  bids : List BinanceLevel
  asks : List BinanceLevel
deriving DecidableEq, Repr

/-- `From<BinancePair> for Level` (binance.rs:25-34), panicking on a
malformed number exactly like the Bitstamp conversion. -/
def binancePairToLevel (p : BitstampPair) : Except String BinanceLevel :=
  match parseDecimal p.price, parseDecimal p.amount with
  | some pr, some am => .ok ⟨"binance", pr, am⟩
  | _, _ => .error decimalUnwrapPanic

/-- `From<BinanceBookUpdate> for BookUpdate` (binance.rs:36-45): converts
every pair — note: no `take(NUM_LEVELS)` truncation. -/
def binanceToBookUpdate (raw : BinanceBookUpdateRaw) : Except String BinanceBookUpdateOut := do
  let bids ← traverseLevels binancePairToLevel raw.bids
  let asks ← traverseLevels binancePairToLevel raw.asks
  pure ⟨"binance", raw.last_update_id, bids, asks⟩

deriving instance DecidableEq for Except

/-!  Basic facts about `Ranking.isBefore`: for either ranking it is a strict
total order on prices. -/

theorem isBefore_irrefl (r : Ranking) (a : Rat) : r.isBefore a a = false := by
  cases r <;> simp [Ranking.isBefore]

theorem isBefore_asymm {r : Ranking} {a b : Rat} (h : r.isBefore a b = true) :
    r.isBefore b a = false := by
  cases r <;> simp_all [Ranking.isBefore] <;> exact le_of_lt h

theorem isBefore_of_not {r : Ranking} {a b : Rat} (h1 : r.isBefore a b = false)
    (h2 : a ≠ b) : r.isBefore b a = true := by
  cases r <;> simp_all [Ranking.isBefore]
  · exact lt_of_le_of_ne h1 (Ne.symm h2)
  · exact lt_of_le_of_ne h1 h2

theorem ne_of_isBefore {r : Ranking} {a b : Rat} (h : r.isBefore a b = true) : a ≠ b := by
  cases r <;> simp_all [Ranking.isBefore] <;> [exact ne_of_lt h; exact (ne_of_lt h).symm]

theorem isBefore_trans {r : Ranking} {a b c : Rat} (h1 : r.isBefore a b = true)
    (h2 : r.isBefore b c = true) : r.isBefore a c = true := by
  cases r <;> simp_all [Ranking.isBefore] <;> [exact h1.trans h2; exact h2.trans h1]

/-- Prices of a side's aggregate levels, in side order. -/
def pricesOf (l : List AggregateLevel) : List Rat := l.map AggregateLevel.price

/-- Strict monotonicity of a level list according to a ranking. -/
def sortedPrices (r : Ranking) (l : List AggregateLevel) : Prop :=
  List.Chain' (fun a b => r.isBefore a b = true) (pricesOf l)

theorem pricesOf_nil : pricesOf [] = [] := rfl

theorem pricesOf_cons (t : AggregateLevel) (ts : List AggregateLevel) :
    pricesOf (t :: ts) = t.price :: pricesOf ts := rfl

theorem pricesOf_append (a b : List AggregateLevel) :
    pricesOf (a ++ b) = pricesOf a ++ pricesOf b := List.map_append _ _ _

theorem price_from_level (u : ExchangeLevel) : (AggregateLevel.from_level u).price = u.price := rfl

theorem price_update (t : AggregateLevel) (u : ExchangeLevel) : (t.update u).price = t.price := rfl

theorem price_remove (t : AggregateLevel) (c : String) : (t.remove c).price = t.price := rfl

theorem pricesOf_concat (done : List AggregateLevel) (x : AggregateLevel) :
    pricesOf (done ++ [x]) = pricesOf done ++ [x.price] := by
  simp [pricesOf]

theorem pricesOf_concat_getLast (done : List AggregateLevel) (x : AggregateLevel) :
    (pricesOf (done ++ [x])).getLast? = some x.price := by
  rw [pricesOf_concat, List.getLast?_concat]

theorem sortedPrices_congr {r : Ranking} (l1 l2 : List AggregateLevel)
    (h : pricesOf l1 = pricesOf l2) (hs : sortedPrices r l2) : sortedPrices r l1 := by
  unfold sortedPrices
  rw [h]
  exact hs

theorem chain'_concat_of {R : Rat → Rat → Prop} {l : List Rat} {x : Rat}
    (hl : List.Chain' R l) (hx : ∀ p ∈ l.getLast?, R p x) : List.Chain' R (l ++ [x]) := by
  rw [List.chain'_append]
  exact ⟨hl, List.chain'_singleton _, fun p hp y hy => by
    simp only [List.head?_cons, Option.mem_def, Option.some.injEq] at hy
    subst hy
    exact hx p hp⟩

theorem chain'_insert_mid {R : Rat → Rat → Prop} {D T : List Rat} {x p : Rat}
    (h : List.Chain' R (D ++ p :: T)) (h1 : ∀ q ∈ D.getLast?, R q x) (h2 : R x p) :
    List.Chain' R (D ++ x :: p :: T) := by
  rw [List.chain'_append] at h ⊢
  obtain ⟨hD, hpT, _⟩ := h
  refine ⟨hD, ?_, ?_⟩
  · rw [List.chain'_cons]
    exact ⟨h2, hpT⟩
  · intro q hq y hy
    simp only [List.head?_cons, Option.mem_def, Option.some.injEq] at hy
    subst hy
    exact h1 q hq

/-- One `apply` call keeps the side strictly ordered and, when it asks the
loop to continue, leaves the cursor just past a level whose price is the
update's price.  Hypotheses: the side is ordered and every level before the
cursor has price strictly before the update's price. -/
theorem applyStep_sorted {r : Ranking} {maxl : Nat} {u : ExchangeLevel} :
    ∀ (todo done d1 t1 : List AggregateLevel) (c : Bool),
    sortedPrices r (done ++ todo) →
    (∀ p ∈ (pricesOf done).getLast?, r.isBefore p u.price = true) →
    applyStep r maxl u done todo = (d1, t1, c) →
    sortedPrices r (d1 ++ t1) ∧ (c = true → (pricesOf d1).getLast? = some u.price) := by
  intro todo
  induction todo with
  | nil =>
    intro done d1 t1 c hs hb happ
    by_cases hcap : maxl ≤ done.length
    · simp only [applyStep, if_pos hcap] at happ
      cases happ
      exact ⟨hs, by simp⟩
    · simp only [applyStep, if_neg hcap] at happ
      cases happ
      constructor
      · refine sortedPrices_congr _ (done ++ [AggregateLevel.from_level u]) (by simp) ?_
        unfold sortedPrices
        rw [pricesOf_concat]
        refine chain'_concat_of ?_ ?_
        · exact sortedPrices_congr done (done ++ []) (by simp) hs
        · simpa [price_from_level] using hb
      · intro _
        simpa [price_from_level] using pricesOf_concat_getLast done (AggregateLevel.from_level u)
  | cons t ts ih =>
    intro done d1 t1 c hs hb happ
    by_cases hlt : r.isBefore u.price t.price = true
    · simp only [applyStep, if_pos hlt] at happ
      cases happ
      constructor
      · refine sortedPrices_congr ((done ++ [AggregateLevel.from_level u]) ++ t :: ts)
          (done ++ AggregateLevel.from_level u :: t :: ts) (by simp) ?_
        unfold sortedPrices
        rw [pricesOf_append, pricesOf_cons, pricesOf_cons, price_from_level]
        have hs' : List.Chain' (fun a b => r.isBefore a b = true)
            (pricesOf done ++ t.price :: pricesOf ts) := by
          have := hs
          unfold sortedPrices at this
          rwa [pricesOf_append, pricesOf_cons] at this
        exact chain'_insert_mid hs' hb hlt
      · intro _
        simpa [price_from_level] using pricesOf_concat_getLast done (AggregateLevel.from_level u)
    · by_cases heq : u.price = t.price
      · simp only [applyStep, if_neg hlt, if_pos heq] at happ
        cases happ
        constructor
        · refine sortedPrices_congr _ (done ++ t :: ts) ?_ hs
          simp [pricesOf, price_update]
        · intro _
          rw [pricesOf_concat_getLast, price_update, heq]
      · simp only [applyStep, if_neg hlt, if_neg heq] at happ
        have hgt : r.isBefore t.price u.price = true :=
          isBefore_of_not (Bool.not_eq_true _ ▸ hlt) heq
        refine ih (done ++ [t.remove u.exchange_code]) d1 t1 c ?_ ?_ happ
        · refine sortedPrices_congr _ (done ++ t :: ts) ?_ hs
          simp [pricesOf, price_remove]
        · intro p hp
          rw [pricesOf_concat_getLast, price_remove] at hp
          simp only [Option.mem_def, Option.some.injEq] at hp
          subst hp
          exact hgt

/-- The whole `update_side` loop keeps the side strictly ordered, when the
incoming snapshot is itself strictly ordered according to the side's
ranking.  The cursor state is tracked through `prev_update_price`: when it
is set, the level just before the cursor carries exactly that price. -/
theorem updateSideData_sorted {r : Ranking} {maxl : Nat} :
    ∀ (upd : List ExchangeLevel) (done todo : List AggregateLevel) (prev : Option Rat)
      (d : List AggregateLevel),
    sortedPrices r (done ++ todo) →
    (∀ q, prev = some q → (pricesOf done).getLast? = some q) →
    (prev = none → done = []) →
    List.Chain' (fun a b => r.isBefore a.price b.price = true) upd →
    (∀ q, prev = some q → ∀ u0 ∈ upd.head?, r.isBefore q u0.price = true) →
    updateSideData r maxl done todo prev upd = .ok d →
    sortedPrices r d := by
  intro upd
  induction upd with
  | nil =>
    intro done todo prev d hs _ _ _ _ hloop
    simp only [updateSideData] at hloop
    cases hloop
    exact hs
  | cons u us ih =>
    intro done todo prev d hs hlast hnone hchain hprev hloop
    simp only [updateSideData] at hloop
    have hcont :
        ∀ hb : ∀ p ∈ (pricesOf done).getLast?, r.isBefore p u.price = true,
        (match applyStep r maxl u done todo with
          | (done1, todo1, true) => updateSideData r maxl done1 todo1 (some u.price) us
          | (done1, todo1, false) => Except.ok (done1 ++ todo1)) = .ok d →
        sortedPrices r d := by
      intro hb hloop1
      rcases happlyeq : applyStep r maxl u done todo with ⟨d1, t1, c⟩
      rw [happlyeq] at hloop1
      have hstep := applyStep_sorted todo done d1 t1 c hs hb happlyeq
      cases c with
      | true =>
        dsimp only at hloop1
        refine ih d1 t1 (some u.price) d hstep.1 ?_ (by intro h; cases h) ?_ ?_ hloop1
        · intro q hq
          cases hq
          exact hstep.2 rfl
        · exact (List.chain'_cons'.mp hchain).2
        · intro q hq u0 hu0
          cases hq
          exact (List.chain'_cons'.mp hchain).1 u0 hu0
      | false =>
        dsimp only at hloop1
        cases hloop1
        exact hstep.1
    cases prev with
    | none =>
      rw [if_neg (by simp)] at hloop
      refine hcont ?_ hloop
      intro p hp
      have hd := hnone rfl
      subst hd
      simp [pricesOf] at hp
    | some q =>
      by_cases hassert : r.isBefore u.price q = true
      · rw [if_pos hassert] at hloop
        cases hloop
      · rw [if_neg hassert] at hloop
        refine hcont ?_ hloop
        intro p hp
        have hl := hlast q rfl
        rw [hl] at hp
        simp only [Option.mem_def, Option.some.injEq] at hp
        subst hp
        exact hprev q rfl u (by simp)

/-- C1 (amended): for every side of the aggregate book and every applied
snapshot whose levels are strictly ordered by the side's ranking, after
`update_side` returns, the side's prices are strictly monotone according to
the side's ranking, no two Aggregate Levels share a price, and no Aggregate
Level has an empty exchange mapping.  (The claimed bound
`length ≤ max_levels` does not hold: the cap is checked only when appending
at the end of the side, not when inserting before existing levels, see the
counterexample.) -/
theorem c1_amended_invariants (side side' : AggregateBookSide) (upd : List ExchangeLevel)
    (hs : sortedPrices side.ordering side.data)
    (hupd : List.Chain' (fun a b => side.ordering.isBefore a.price b.price = true) upd)
    (hok : side.update_side upd = .ok side') :
    sortedPrices side.ordering side'.data ∧
    side'.data.Pairwise (fun a b => a.price ≠ b.price) ∧
    ∀ l ∈ side'.data, l.exchange_levels ≠ [] := by
  haveI : IsTrans Rat (fun a b => side.ordering.isBefore a b = true) :=
    ⟨fun _ _ _ hab hbc => isBefore_trans hab hbc⟩
  unfold AggregateBookSide.update_side at hok
  cases hres : updateSideData side.ordering side.max_levels [] side.data none upd with
  | error e =>
    rw [hres] at hok
    simp [Except.map] at hok
  | ok d =>
    rw [hres] at hok
    simp only [Except.map, Except.ok.injEq] at hok
    have hsd : sortedPrices side.ordering d :=
      updateSideData_sorted upd [] side.data none d (by simpa using hs)
        (by intro q hq; cases hq) (fun _ => rfl) hupd (by intro q hq; cases hq) hres
    have hdata : side'.data = d.filter (fun l => !l.exchange_levels.isEmpty) := by
      rw [← hok]
    have hsub : List.Sublist (pricesOf side'.data) (pricesOf d) := by
      rw [hdata]
      exact List.Sublist.map _ (List.filter_sublist d)
    have hsorted' : sortedPrices side.ordering side'.data := hsd.sublist hsub
    refine ⟨hsorted', ?_, ?_⟩
    · have hpw : (pricesOf side'.data).Pairwise
          (fun a b => side.ordering.isBefore a b = true) :=
        List.chain'_iff_pairwise.mp hsorted'
      have hpw2 : (pricesOf side'.data).Pairwise (fun a b => a ≠ b) :=
        hpw.imp (fun h => ne_of_isBefore h)
      exact (List.pairwise_map).mp hpw2
    · intro l hl
      rw [hdata] at hl
      have := List.of_mem_filter hl
      simpa using this

/-- C1 (counterexample to the length bound): a depth-3 bid side filled with
three levels by one strictly ordered snapshot grows to four levels when a
second exchange's strictly ordered snapshot inserts a better price: the
insertion branch of `apply` performs no depth check, so
`data.length = 4 > max_levels = 3` after `update_side`. -/
theorem c1_counterexample :
    ((AggregateBookSide.mk Ranking.GreaterFirst 3 []).update_side
        [⟨"Y", 99, 10⟩, ⟨"Y", 98, 10⟩, ⟨"Y", 97, 10⟩]).bind
      (fun s => s.update_side [⟨"Z", 100, 10⟩]) =
      .ok ⟨Ranking.GreaterFirst, 3,
        [⟨100, [⟨"Z", 100, 10⟩]⟩, ⟨99, [⟨"Y", 99, 10⟩]⟩,
         ⟨98, [⟨"Y", 98, 10⟩]⟩, ⟨97, [⟨"Y", 97, 10⟩]⟩]⟩ ∧
    (AggregateBookSide.mk Ranking.GreaterFirst 3
        [⟨100, [⟨"Z", 100, 10⟩]⟩, ⟨99, [⟨"Y", 99, 10⟩]⟩,
         ⟨98, [⟨"Y", 98, 10⟩]⟩, ⟨97, [⟨"Y", 97, 10⟩]⟩]).max_levels <
      (AggregateBookSide.mk Ranking.GreaterFirst 3
        [⟨100, [⟨"Z", 100, 10⟩]⟩, ⟨99, [⟨"Y", 99, 10⟩]⟩,
         ⟨98, [⟨"Y", 98, 10⟩]⟩, ⟨97, [⟨"Y", 97, 10⟩]⟩]).data.length := by
  constructor
  · decide
  · decide

/-- Concrete inputs for the C1 witness. -/
def c1SideIn : AggregateBookSide := ⟨Ranking.GreaterFirst, 10, []⟩

/-- Concrete snapshot for the C1 witness. -/
def c1Upd : List ExchangeLevel := [⟨"X", 99, 1⟩, ⟨"X", 98, 2⟩]

/-- Concrete result side for the C1 witness. -/
def c1SideOut : AggregateBookSide :=
  ⟨Ranking.GreaterFirst, 10, [⟨99, [⟨"X", 99, 1⟩]⟩, ⟨98, [⟨"X", 98, 2⟩]⟩]⟩

/-- Executable check that consecutive elements of a list satisfy a Boolean
relation: a computable mirror of `List.Chain'`, used to discharge ordering
hypotheses on concrete inputs by evaluation. -/
def chainHolds {α : Type} (R : α → α → Bool) : List α → Bool
  | [] => true
  | [_] => true
  | a :: b :: rest => R a b && chainHolds R (b :: rest)

theorem chainHolds_iff {α : Type} (R : α → α → Bool) :
    ∀ l : List α, chainHolds R l = true ↔ List.Chain' (fun a b => R a b = true) l := by
  intro l
  match l with
  | [] => simp [chainHolds]
  | [a] => simp [chainHolds]
  | a :: b :: rest =>
    rw [List.chain'_cons]
    have ihr := chainHolds_iff R (b :: rest)
    simp [chainHolds, Bool.and_eq_true, ihr]

/-- C1 witness: the amended invariant theorem applied to a concrete side and
snapshot, with all hypotheses discharged by evaluation. -/
theorem c1_witness :
    sortedPrices c1SideIn.ordering c1SideOut.data ∧
    c1SideOut.data.Pairwise (fun a b => a.price ≠ b.price) ∧
    ∀ l ∈ c1SideOut.data, l.exchange_levels ≠ [] :=
  c1_amended_invariants c1SideIn c1SideOut c1Upd
    ((chainHolds_iff _ _).mp (by decide)) ((chainHolds_iff _ _).mp (by decide)) (by decide)

/-- The update loop never fails when each update level's price is not before
the previous one under the side's ranking: the ordering assertion is the
only failure point, and it compares against `prev_update_price` only. -/
theorem updateSideData_total {r : Ranking} {maxl : Nat} :
    ∀ (upd : List ExchangeLevel) (done todo : List AggregateLevel) (prev : Option Rat),
    List.Chain' (fun a b => r.isBefore b.price a.price = false) upd →
    (∀ q, prev = some q → ∀ u0 ∈ upd.head?, r.isBefore u0.price q = false) →
    ∃ d, updateSideData r maxl done todo prev upd = .ok d := by
  intro upd
  induction upd with
  | nil =>
    intro done todo prev _ _
    exact ⟨done ++ todo, rfl⟩
  | cons u us ih =>
    intro done todo prev hchain hprev
    simp only [updateSideData]
    have hcont :
        ∃ d, (match applyStep r maxl u done todo with
          | (done1, todo1, true) => updateSideData r maxl done1 todo1 (some u.price) us
          | (done1, todo1, false) => Except.ok (done1 ++ todo1)) = .ok d := by
      rcases happlyeq : applyStep r maxl u done todo with ⟨d1, t1, c⟩
      cases c with
      | true =>
        have hnext : ∀ q, (some u.price : Option Rat) = some q →
            ∀ u0 ∈ us.head?, r.isBefore u0.price q = false := by
          intro q hq u0 hu0
          cases hq
          cases us with
          | nil => simp at hu0
          | cons v vs =>
            have hrel := (List.chain'_cons'.mp hchain).1 v (by simp)
            simp only [List.head?_cons, Option.mem_def, Option.some.injEq] at hu0
            cases hu0
            exact hrel
        obtain ⟨d, hd⟩ := ih d1 t1 (some u.price) (List.chain'_cons'.mp hchain).2 hnext
        exact ⟨d, hd⟩
      | false =>
        exact ⟨d1 ++ t1, rfl⟩
    cases prev with
    | none =>
      dsimp only
      rw [if_neg (by simp)]
      exact hcont
    | some q =>
      have hq : r.isBefore u.price q = false := hprev q rfl u (by simp)
      dsimp only
      rw [if_neg (by simp [hq])]
      exact hcont

/-- Whether a fallible computation succeeded (`true` iff no panic). -/
def exceptIsOk {ε α : Type} : Except ε α → Bool
  | .ok _ => true
  | .error _ => false

/-- C3: applying a snapshot whose level sequence violates the side's
ordering — the spec's example, bids `[(99,10),(100,10)]` against the
descending bid ranking — makes `AggregateBook::update` raise the fatal
ordering contract violation; and for every snapshot in which each level's
price is not before the previous update price under the side's ranking, the
assertion does not fire and `update_side` completes normally. -/
theorem c3_ordering_contract :
    (AggregateBook.new 10).update ⟨"X", [⟨"X", 99, 10⟩, ⟨"X", 100, 10⟩], []⟩ =
      .error orderingViolation ∧
    ∀ (side : AggregateBookSide) (upd : List ExchangeLevel),
      List.Chain' (fun a b => side.ordering.isBefore b.price a.price = false) upd →
      exceptIsOk (side.update_side upd) = true := by
  constructor
  · decide
  · intro side upd hchain
    obtain ⟨d, hd⟩ := updateSideData_total upd [] side.data none hchain
      (by intro q hq; cases hq)
    unfold AggregateBookSide.update_side
    rw [hd]
    rfl

theorem chainHolds_iff_eq_false {α : Type} (R : α → α → Bool) :
    ∀ l : List α, chainHolds (fun a b => !R a b) l = true ↔
      List.Chain' (fun a b => R a b = false) l := by
  intro l
  match l with
  | [] => simp [chainHolds]
  | [a] => simp [chainHolds]
  | a :: b :: rest =>
    rw [List.chain'_cons]
    have ihr := chainHolds_iff_eq_false R (b :: rest)
    simp [chainHolds, Bool.and_eq_true, ihr]

/-- Concrete side for the C3 witness. -/
def c3Side : AggregateBookSide := ⟨Ranking.LessFirst, 10, [⟨100, [⟨"X", 100, 1⟩]⟩]⟩

/-- Concrete weakly-ordered snapshot (note the repeated price, which the
assertion tolerates) for the C3 witness. -/
def c3Upd : List ExchangeLevel := [⟨"X", 100, 1⟩, ⟨"X", 100, 2⟩, ⟨"X", 101, 1⟩]

/-- C3 witness: the completion half of the theorem applied to a concrete
side and weakly ordered snapshot. -/
theorem c3_witness : exceptIsOk (c3Side.update_side c3Upd) = true :=
  c3_ordering_contract.2 c3Side c3Upd ((chainHolds_iff_eq_false _ _).mp (by decide))

/-- C10: a side update whose prices are weakly ordered but repeat — bids
`[(99,10),(99,5)]` applied to an empty bid side — passes the ordering
assertion (which only rejects a price strictly before the previous update
price) and produces two distinct Aggregate Levels with the same price. -/
theorem c10_duplicate_price_levels :
    (AggregateBookSide.mk Ranking.GreaterFirst 10 []).update_side
        [⟨"X", 99, 10⟩, ⟨"X", 99, 5⟩] =
      .ok ⟨Ranking.GreaterFirst, 10, [⟨99, [⟨"X", 99, 10⟩]⟩, ⟨99, [⟨"X", 99, 5⟩]⟩]⟩ ∧
    (⟨99, [⟨"X", 99, 10⟩]⟩ : AggregateLevel) ≠ ⟨99, [⟨"X", 99, 5⟩]⟩ ∧
    (⟨99, [⟨"X", 99, 10⟩]⟩ : AggregateLevel).price = (⟨99, [⟨"X", 99, 5⟩]⟩ : AggregateLevel).price := by
  refine ⟨by decide, by decide, rfl⟩

/-- C2 (failing input): a bid side holding price 99 from exchange `E`
receives a second snapshot from `E` containing only price 100.  The
snapshot has no level at price 99, yet after `update_side` the side still
holds an Aggregate Level at 99 whose mapping contains `E`: the cursor walk
only withdraws an exchange's entries from levels it passes, and it never
passes levels beyond the snapshot's last price. -/
theorem c2_stale_level_retains_exchange :
    ((AggregateBookSide.mk Ranking.GreaterFirst 10 []).update_side [⟨"E", 99, 1⟩]).bind
      (fun s => s.update_side [⟨"E", 100, 1⟩]) =
      .ok ⟨Ranking.GreaterFirst, 10, [⟨100, [⟨"E", 100, 1⟩]⟩, ⟨99, [⟨"E", 99, 1⟩]⟩]⟩ ∧
    ([⟨"E", 100, 1⟩] : List ExchangeLevel).all (fun u => u.price != 99) = true ∧
    ([⟨100, [⟨"E", 100, 1⟩]⟩, ⟨99, [⟨"E", 99, 1⟩]⟩] : List AggregateLevel).any
      (fun l => l.price == 99 && l.exchange_levels.any (fun x => x.exchange_code == "E")) = true := by
  refine ⟨by decide, by decide, by decide⟩

/-- C4: the summary spread is NaN (modelled as `none`) exactly when the best
bids or the best asks are empty, and otherwise equals the first best-ask
price minus the first best-bid price. -/
theorem c4_spread (book : AggregateBook) :
    ((make_summary book).spread = none ↔ (book.best_bids = [] ∨ book.best_asks = [])) ∧
    (∀ b bs a asks2, book.best_bids = b :: bs → book.best_asks = a :: asks2 →
      (make_summary book).spread = some (a.price - b.price)) := by
  constructor
  · rcases hb : book.best_bids with _ | ⟨b0, bs0⟩ <;>
      rcases ha : book.best_asks with _ | ⟨a0, as0⟩ <;>
        simp [make_summary, hb, ha]
  · intro b bs a asks2 hbb haa
    simp [make_summary, hbb, haa]

/-- Concrete book for the C4 witness. -/
def c4Book : AggregateBook :=
  ⟨⟨Ranking.GreaterFirst, 3, [⟨99, [⟨"X", 99, 1⟩]⟩]⟩,
   ⟨Ranking.LessFirst, 3, [⟨100, [⟨"X", 100, 2⟩]⟩]⟩⟩

/-- C4 witness: the spread theorem applied to a concrete one-level book. -/
theorem c4_witness : (make_summary c4Book).spread =
    some ((⟨"X", 100, 2⟩ : ExchangeLevel).price - (⟨"X", 99, 1⟩ : ExchangeLevel).price) :=
  (c4_spread c4Book).2 ⟨"X", 99, 1⟩ [] ⟨"X", 100, 2⟩ [] (by decide) (by decide)

theorem bestLevelsAux_eq (l : List AggregateLevel) :
    ∀ n, bestLevelsAux l n = (l.flatMap AggregateLevel.levels_by_amount).take n := by
  induction l with
  | nil => intro n; simp [bestLevelsAux]
  | cons t rest ih =>
    intro n
    rw [List.flatMap_cons, List.take_append_eq_append_take]
    by_cases hn : n ≤ t.levels_by_amount.length
    · have h1 : min t.levels_by_amount.length n = n := min_eq_right hn
      have h2 : n - t.levels_by_amount.length = 0 := Nat.sub_eq_zero_of_le hn
      simp only [bestLevelsAux, h1, Nat.sub_self, h2, List.take_zero, List.append_nil]
      simp
    · have hlt : t.levels_by_amount.length < n := by omega
      have h1 : min t.levels_by_amount.length n = t.levels_by_amount.length :=
        min_eq_left (by omega)
      simp only [bestLevelsAux, h1]
      rw [if_neg (by omega), ih]
      have h3 : List.take n t.levels_by_amount = t.levels_by_amount :=
        List.take_of_length_le (by omega)
      rw [List.take_length, h3]

/-- C7: `best_levels` (hence `best_bids`/`best_asks`) is the concatenation,
in side order, of each Aggregate Level's exchange contributions sorted by
amount descending, truncated to `max_levels`; consequently its length never
exceeds `max_levels`.  On the spec's depth-3 example — bids
101→{A:5, B:10}, 100→{B:10}, 99→{A:10} — it yields
`[B:101:10, A:101:5, B:100:10]`. -/
theorem c7_best_levels :
    (∀ side : AggregateBookSide,
      side.best_levels =
        (side.data.flatMap AggregateLevel.levels_by_amount).take side.max_levels) ∧
    (∀ side : AggregateBookSide, side.best_levels.length ≤ side.max_levels) ∧
    (AggregateBook.mk
        ⟨Ranking.GreaterFirst, 3,
          [⟨101, [⟨"A", 101, 5⟩, ⟨"B", 101, 10⟩]⟩, ⟨100, [⟨"B", 100, 10⟩]⟩,
           ⟨99, [⟨"A", 99, 10⟩]⟩]⟩
        ⟨Ranking.LessFirst, 3, []⟩).best_bids =
      [⟨"B", 101, 10⟩, ⟨"A", 101, 5⟩, ⟨"B", 100, 10⟩] := by
  refine ⟨?_, ?_, by decide⟩
  · intro side
    exact bestLevelsAux_eq side.data side.max_levels
  · intro side
    rw [AggregateBookSide.best_levels, bestLevelsAux_eq]
    simp [List.length_take]

/-- Specification function: the ordered merge that `update_side` performs
when the depth cap never binds.  Walking the side (`todo`) and the snapshot
(`upd`) together: a snapshot level before the current side level is
materialised, an equal price merges into the level's exchange map, and a
side level before the snapshot level has the snapshot's exchange withdrawn.
`updateSideData` starting at cursor 0 is proved below to produce exactly
this merge whenever the cap is never reached. -/
def mergeInto (r : Ranking) : List AggregateLevel → List ExchangeLevel → List AggregateLevel
  | todo, [] => todo
  | [], u :: us => AggregateLevel.from_level u :: mergeInto r [] us
  | t :: ts, u :: us =>
    if r.isBefore u.price t.price then AggregateLevel.from_level u :: mergeInto r (t :: ts) us
    else if u.price = t.price then t.update u :: mergeInto r ts us
    else t.remove u.exchange_code :: mergeInto r ts (u :: us)
termination_by todo upd => todo.length + upd.length

theorem mergeInto_upd_nil {r : Ranking} (todo : List AggregateLevel) :
    mergeInto r todo [] = todo := by
  cases todo <;> simp [mergeInto]

theorem mergeInto_nil_left {r : Ranking} :
    ∀ upd : List ExchangeLevel, mergeInto r [] upd = upd.map AggregateLevel.from_level := by
  intro upd
  induction upd with
  | nil => simp [mergeInto]
  | cons u us ih => simp [mergeInto, ih]

theorem mergeInto_length {r : Ranking} :
    ∀ (n : Nat) (todo : List AggregateLevel) (upd : List ExchangeLevel),
    todo.length + upd.length ≤ n →
    (mergeInto r todo upd).length ≤ todo.length + upd.length := by
  intro n
  induction n with
  | zero =>
    intro todo upd hlen
    have ht : todo = [] := by
      cases todo <;> simp_all
    have hu : upd = [] := by
      cases upd <;> simp_all
    subst ht; subst hu
    simp [mergeInto]
  | succ n ih =>
    intro todo upd hlen
    match todo, upd with
    | todo, [] => simp [mergeInto_upd_nil]
    | [], u :: us =>
      rw [mergeInto_nil_left]
      simp
    | t :: ts, u :: us =>
      simp only [mergeInto]
      by_cases h1 : r.isBefore u.price t.price = true
      · rw [if_pos h1]
        have := ih (t :: ts) us (by simp at hlen ⊢; omega)
        simp at this ⊢
        omega
      · rw [if_neg h1]
        by_cases h2 : u.price = t.price
        · rw [if_pos h2]
          have := ih ts us (by simp at hlen ⊢; omega)
          simp at this ⊢
          omega
        · rw [if_neg h2]
          have := ih ts (u :: us) (by simp at hlen ⊢; omega)
          simp at this ⊢
          omega

/-- One `apply` call, when the depth cap is beyond reach, advances the
cursor exactly as one round of the specification merge: it contributes a
non-empty block `dE` to the processed zipper part and leaves a suffix
`todo1`, with the merge of the whole equal to `dE` followed by the merge of
the suffix with the remaining updates. -/
theorem applyStep_merge {r : Ranking} {maxl : Nat} (u : ExchangeLevel)
    (us : List ExchangeLevel) :
    ∀ (todo done : List AggregateLevel),
    done.length + (mergeInto r todo (u :: us)).length ≤ maxl →
    ∃ dE todo1,
      applyStep r maxl u done todo = (done ++ dE, todo1, true) ∧
      mergeInto r todo (u :: us) = dE ++ mergeInto r todo1 us := by
  intro todo
  induction todo with
  | nil =>
    intro done hcap
    have hm : mergeInto r [] (u :: us) =
        AggregateLevel.from_level u :: mergeInto r [] us := by
      simp [mergeInto]
    refine ⟨[AggregateLevel.from_level u], [], ?_, ?_⟩
    · have hlt : ¬ maxl ≤ done.length := by
        rw [hm] at hcap
        simp at hcap
        omega
      simp [applyStep, hlt]
    · rw [hm]
      simp
  | cons t ts ih =>
    intro done hcap
    by_cases h1 : r.isBefore u.price t.price = true
    · refine ⟨[AggregateLevel.from_level u], t :: ts, ?_, ?_⟩
      · simp [applyStep, h1]
      · simp only [mergeInto, if_pos h1]
        simp
    · by_cases h2 : u.price = t.price
      · refine ⟨[t.update u], ts, ?_, ?_⟩
        · simp [applyStep, h1, h2, isBefore_irrefl]
        · simp only [mergeInto, if_neg h1, if_pos h2]
          simp
      · have hm : mergeInto r (t :: ts) (u :: us) =
            t.remove u.exchange_code :: mergeInto r ts (u :: us) := by
          simp only [mergeInto, if_neg h1, if_neg h2]
        have hcap2 : (done ++ [t.remove u.exchange_code]).length +
            (mergeInto r ts (u :: us)).length ≤ maxl := by
          rw [hm] at hcap
          simp at hcap ⊢
          omega
        obtain ⟨dE, todo1, happ, hmerge⟩ := ih (done ++ [t.remove u.exchange_code]) hcap2
        refine ⟨t.remove u.exchange_code :: dE, todo1, ?_, ?_⟩
        · have : applyStep r maxl u done (t :: ts) =
              applyStep r maxl u (done ++ [t.remove u.exchange_code]) ts := by
            simp [applyStep, h1, h2]
          rw [this, happ]
          simp
        · rw [hm, hmerge]
          simp

/-- The whole update loop, when the depth cap is beyond reach (the final
merged length fits under `max_levels`) and the snapshot is strictly
ordered, computes exactly the specification merge of the remaining side
with the snapshot. -/
theorem updateSideData_merge {r : Ranking} {maxl : Nat} :
    ∀ (upd : List ExchangeLevel) (done todo : List AggregateLevel) (prev : Option Rat),
    done.length + (mergeInto r todo upd).length ≤ maxl →
    List.Chain' (fun a b => r.isBefore a.price b.price = true) upd →
    (∀ q, prev = some q → ∀ u0 ∈ upd.head?, r.isBefore q u0.price = true) →
    updateSideData r maxl done todo prev upd = .ok (done ++ mergeInto r todo upd) := by
  intro upd
  induction upd with
  | nil =>
    intro done todo prev _ _ _
    rw [mergeInto_upd_nil]
    rfl
  | cons u us ih =>
    intro done todo prev hcap hchain hprev
    simp only [updateSideData]
    obtain ⟨dE, todo1, happ, hmerge⟩ := applyStep_merge u us todo done hcap
    have hcont :
        (match applyStep r maxl u done todo with
          | (done1, todo1, true) => updateSideData r maxl done1 todo1 (some u.price) us
          | (done1, todo1, false) => Except.ok (done1 ++ todo1)) =
        .ok (done ++ mergeInto r todo (u :: us)) := by
      rw [happ]
      dsimp only
      have hnext : ∀ q, (some u.price : Option Rat) = some q →
          ∀ u0 ∈ us.head?, r.isBefore q u0.price = true := by
        intro q hq u0 hu0
        cases hq
        cases us with
        | nil => simp at hu0
        | cons v vs =>
          have hrel := (List.chain'_cons'.mp hchain).1 v (by simp)
          simp only [List.head?_cons, Option.mem_def, Option.some.injEq] at hu0
          cases hu0
          exact hrel
      have hcap2 : (done ++ dE).length + (mergeInto r todo1 us).length ≤ maxl := by
        have : (mergeInto r todo (u :: us)).length =
            dE.length + (mergeInto r todo1 us).length := by
          rw [hmerge]
          simp
        simp only [List.length_append]
        omega
      rw [ih (done ++ dE) todo1 (some u.price) hcap2 (List.chain'_cons'.mp hchain).2 hnext]
      rw [hmerge]
      simp
    cases prev with
    | none =>
      dsimp only
      rw [if_neg (by simp)]
      exact hcont
    | some q =>
      have hq : r.isBefore u.price q = false :=
        isBefore_asymm (hprev q rfl u (by simp))
      dsimp only
      rw [if_neg (by simp [hq])]
      exact hcont

theorem filter_map_from_level (upd : List ExchangeLevel) :
    (upd.map AggregateLevel.from_level).filter (fun l => !l.exchange_levels.isEmpty) =
      upd.map AggregateLevel.from_level := by
  rw [List.filter_eq_self]
  intro l hl
  obtain ⟨u, _, rfl⟩ := List.mem_map.mp hl
  simp [AggregateLevel.from_level]

theorem update_from_level_self (u : ExchangeLevel) :
    (AggregateLevel.from_level u).update u = AggregateLevel.from_level u := by
  simp [AggregateLevel.from_level, AggregateLevel.update, mapInsert, lt_irrefl]

theorem mergeInto_self {r : Ranking} :
    ∀ upd : List ExchangeLevel,
    mergeInto r (upd.map AggregateLevel.from_level) upd = upd.map AggregateLevel.from_level := by
  intro upd
  induction upd with
  | nil => simp [mergeInto]
  | cons u us ih =>
    simp [mergeInto, price_from_level, isBefore_irrefl, update_from_level_self, ih]

/-- Applying a strictly ordered snapshot to an empty side of sufficient
depth materialises exactly the snapshot's levels. -/
theorem update_side_from_empty {r : Ranking} {maxl : Nat} (upd : List ExchangeLevel)
    (hchain : List.Chain' (fun a b => r.isBefore a.price b.price = true) upd)
    (hlen : upd.length ≤ maxl) :
    (AggregateBookSide.mk r maxl []).update_side upd =
      .ok ⟨r, maxl, upd.map AggregateLevel.from_level⟩ := by
  have hcap : ([] : List AggregateLevel).length + (mergeInto r [] upd).length ≤ maxl := by
    rw [mergeInto_nil_left]
    simpa using hlen
  have hloop := @updateSideData_merge r maxl upd [] [] none hcap hchain
    (by intro q hq; cases hq)
  unfold AggregateBookSide.update_side
  dsimp only
  rw [hloop]
  simp [Except.map, mergeInto_nil_left, filter_map_from_level]

/-- Applying a strictly ordered snapshot to a side that already holds
exactly that snapshot's levels leaves the side unchanged. -/
theorem update_side_self {r : Ranking} {maxl : Nat} (upd : List ExchangeLevel)
    (hchain : List.Chain' (fun a b => r.isBefore a.price b.price = true) upd)
    (hlen : upd.length ≤ maxl) :
    (AggregateBookSide.mk r maxl (upd.map AggregateLevel.from_level)).update_side upd =
      .ok ⟨r, maxl, upd.map AggregateLevel.from_level⟩ := by
  have hcap : ([] : List AggregateLevel).length +
      (mergeInto r (upd.map AggregateLevel.from_level) upd).length ≤ maxl := by
    rw [mergeInto_self]
    simpa using hlen
  have hloop := @updateSideData_merge r maxl upd [] (upd.map AggregateLevel.from_level) none
    hcap hchain (by intro q hq; cases hq)
  unfold AggregateBookSide.update_side
  dsimp only
  rw [hloop]
  simp [Except.map, mergeInto_self, filter_map_from_level]

/-- C6 (amended): applying the same snapshot twice in succession to a
freshly created aggregate book equals applying it once, provided the
snapshot's sides are strictly ordered and fit within the book's depth.  (In
general the law fails once the depth cap interferes, see the
counterexample.) -/
theorem c6_amended_idempotent (maxl : Nat) (bu : BookUpdate)
    (hcb : List.Chain' (fun a b => Ranking.GreaterFirst.isBefore a.price b.price = true) bu.bids)
    (hca : List.Chain' (fun a b => Ranking.LessFirst.isBefore a.price b.price = true) bu.asks)
    (hlb : bu.bids.length ≤ maxl) (hla : bu.asks.length ≤ maxl) :
    ((AggregateBook.new maxl).update bu).bind (fun b => b.update bu) =
      (AggregateBook.new maxl).update bu := by
  have h1 : (AggregateBook.new maxl).update bu =
      .ok ⟨⟨Ranking.GreaterFirst, maxl, bu.bids.map AggregateLevel.from_level⟩,
           ⟨Ranking.LessFirst, maxl, bu.asks.map AggregateLevel.from_level⟩⟩ := by
    unfold AggregateBook.update AggregateBook.new
    dsimp only
    rw [update_side_from_empty bu.bids hcb hlb]
    dsimp only [Except.bind, bind]
    rw [update_side_from_empty bu.asks hca hla]
    rfl
  have h2 : (AggregateBook.update
      ⟨⟨Ranking.GreaterFirst, maxl, bu.bids.map AggregateLevel.from_level⟩,
       ⟨Ranking.LessFirst, maxl, bu.asks.map AggregateLevel.from_level⟩⟩ bu) =
      .ok ⟨⟨Ranking.GreaterFirst, maxl, bu.bids.map AggregateLevel.from_level⟩,
           ⟨Ranking.LessFirst, maxl, bu.asks.map AggregateLevel.from_level⟩⟩ := by
    unfold AggregateBook.update
    dsimp only
    rw [update_side_self bu.bids hcb hlb]
    dsimp only [Except.bind, bind]
    rw [update_side_self bu.asks hca hla]
    rfl
  rw [h1]
  dsimp only [Except.bind, bind]
  exact h2

/-- C6 (counterexample): with depth cap 1, a book holding bid 99 from `E`
receives the snapshot bids `[(98,1)]` from `E`.  Applying it once empties
the bid side (99 is withdrawn, 98 is refused by the cap); applying it twice
materialises 98 — so re-applying the same snapshot changes the book. -/
theorem c6_counterexample :
    ((AggregateBook.new 1).update ⟨"E", [⟨"E", 99, 1⟩], []⟩).bind
        (fun b => b.update ⟨"E", [⟨"E", 98, 1⟩], []⟩) =
      .ok ⟨⟨Ranking.GreaterFirst, 1, []⟩, ⟨Ranking.LessFirst, 1, []⟩⟩ ∧
    (((AggregateBook.new 1).update ⟨"E", [⟨"E", 99, 1⟩], []⟩).bind
        (fun b => b.update ⟨"E", [⟨"E", 98, 1⟩], []⟩)).bind
        (fun b => b.update ⟨"E", [⟨"E", 98, 1⟩], []⟩) =
      .ok ⟨⟨Ranking.GreaterFirst, 1, [⟨98, [⟨"E", 98, 1⟩]⟩]⟩, ⟨Ranking.LessFirst, 1, []⟩⟩ ∧
    (⟨⟨Ranking.GreaterFirst, 1, []⟩, ⟨Ranking.LessFirst, 1, []⟩⟩ : AggregateBook) ≠
      ⟨⟨Ranking.GreaterFirst, 1, [⟨98, [⟨"E", 98, 1⟩]⟩]⟩, ⟨Ranking.LessFirst, 1, []⟩⟩ := by
  refine ⟨by decide, by decide, by decide⟩

/-- Concrete snapshot for the C6 witness. -/
def c6Bu : BookUpdate := ⟨"X", [⟨"X", 99, 1⟩, ⟨"X", 98, 2⟩], [⟨"X", 100, 1⟩, ⟨"X", 101, 2⟩]⟩

/-- C6 witness: the amended idempotence theorem applied to a concrete
snapshot on a depth-10 book. -/
theorem c6_witness :
    ((AggregateBook.new 10).update c6Bu).bind (fun b => b.update c6Bu) =
      (AggregateBook.new 10).update c6Bu :=
  c6_amended_idempotent 10 c6Bu ((chainHolds_iff _ _).mp (by decide))
    ((chainHolds_iff _ _).mp (by decide)) (by decide) (by decide)

theorem isBefore_trichotomy (r : Ranking) (a b : Rat) :
    r.isBefore a b = true ∨ a = b ∨ r.isBefore b a = true := by
  cases r <;> simp only [Ranking.isBefore, decide_eq_true_eq] <;>
    rcases lt_trichotomy a b with h | h | h <;> tauto

theorem mapInsert_pair_comm (a b : ExchangeLevel) (h : a.exchange_code ≠ b.exchange_code) :
    mapInsert b [a] = mapInsert a [b] := by
  rcases lt_trichotomy a.exchange_code b.exchange_code with hlt | heq | hgt
  · simp [mapInsert, hlt, lt_asymm hlt, h, Ne.symm h]
  · exact absurd heq h
  · simp [mapInsert, hgt, lt_asymm hgt, h, Ne.symm h]

theorem remove_from_level_ne (x : ExchangeLevel) (code : String)
    (h : x.exchange_code ≠ code) :
    (AggregateLevel.from_level x).remove code = AggregateLevel.from_level x := by
  simp [AggregateLevel.from_level, AggregateLevel.remove, mapRemove, h]

theorem update_pair_comm (a b : ExchangeLevel) (hprice : a.price = b.price)
    (hcode : a.exchange_code ≠ b.exchange_code) :
    (AggregateLevel.from_level a).update b = (AggregateLevel.from_level b).update a := by
  simp only [AggregateLevel.from_level, AggregateLevel.update]
  rw [hprice, mapInsert_pair_comm a b hcode]

/-- The specification merge is symmetric for snapshots from two distinct
exchanges: merging B into A's levels equals merging A into B's levels. -/
theorem mergeInto_comm {r : Ranking} (e1 e2 : String) (hne : e1 ≠ e2) :
    ∀ (n : Nat) (A B : List ExchangeLevel),
    A.length + B.length ≤ n →
    (∀ x ∈ A, x.exchange_code = e1) →
    (∀ x ∈ B, x.exchange_code = e2) →
    mergeInto r (A.map AggregateLevel.from_level) B =
      mergeInto r (B.map AggregateLevel.from_level) A := by
  intro n
  induction n with
  | zero =>
    intro A B hlen _ _
    have ha : A = [] := by cases A <;> simp_all
    have hb : B = [] := by cases B <;> simp_all
    subst ha
    subst hb
    rfl
  | succ n ih =>
    intro A B hlen hA hB
    cases A with
    | nil => rw [List.map_nil, mergeInto_nil_left, mergeInto_upd_nil]
    | cons a as =>
      cases B with
      | nil => rw [List.map_nil, mergeInto_upd_nil, mergeInto_nil_left]
      | cons b bs =>
        have hac : a.exchange_code = e1 := hA a (by simp)
        have hbc : b.exchange_code = e2 := hB b (by simp)
        have hcode : a.exchange_code ≠ b.exchange_code := by
          rw [hac, hbc]
          exact hne
        have hA2 : ∀ x ∈ as, x.exchange_code = e1 := fun x hx => hA x (by simp [hx])
        have hB2 : ∀ x ∈ bs, x.exchange_code = e2 := fun x hx => hB x (by simp [hx])
        rcases isBefore_trichotomy r a.price b.price with hab | heq | hba
        · -- a strictly first: the left walk withdraws b's (absent) exchange
          -- from a's level; the right walk materialises a first.
          have h1 : ¬ r.isBefore b.price (AggregateLevel.from_level a).price = true := by
            rw [price_from_level]
            simp [isBefore_asymm hab]
          have h2 : ¬ b.price = (AggregateLevel.from_level a).price := by
            rw [price_from_level]
            exact fun hc => (ne_of_isBefore hab) hc.symm
          have h3 : r.isBefore a.price (AggregateLevel.from_level b).price = true := by
            rw [price_from_level]
            exact hab
          simp only [List.map_cons, mergeInto, if_neg h1, if_neg h2, if_pos h3]
          rw [remove_from_level_ne a b.exchange_code (by rw [hac, hbc]; exact hne)]
          have htail := ih as (b :: bs) (by simp at hlen ⊢; omega) hA2 hB
          rw [htail, List.map_cons]
        · -- equal prices: both walks merge the two exchanges into one level.
          have h1 : ¬ r.isBefore b.price (AggregateLevel.from_level a).price = true := by
            rw [price_from_level, ← heq]
            simp [isBefore_irrefl]
          have h2 : b.price = (AggregateLevel.from_level a).price := by
            rw [price_from_level, heq]
          have h3 : ¬ r.isBefore a.price (AggregateLevel.from_level b).price = true := by
            rw [price_from_level, heq]
            simp [isBefore_irrefl]
          have h4 : a.price = (AggregateLevel.from_level b).price := by
            rw [price_from_level, heq]
          simp only [List.map_cons, mergeInto, if_neg h1, if_pos h2, if_neg h3, if_pos h4]
          rw [update_pair_comm a b heq hcode]
          have htail := ih as bs (by simp at hlen ⊢; omega) hA2 hB2
          rw [htail]
        · -- b strictly first: mirror of the first case.
          have h1 : r.isBefore b.price (AggregateLevel.from_level a).price = true := by
            rw [price_from_level]
            exact hba
          have h2 : ¬ r.isBefore a.price (AggregateLevel.from_level b).price = true := by
            rw [price_from_level]
            simp [isBefore_asymm hba]
          have h3 : ¬ a.price = (AggregateLevel.from_level b).price := by
            rw [price_from_level]
            exact fun hc => (ne_of_isBefore hba) hc.symm
          simp only [List.map_cons, mergeInto, if_pos h1, if_neg h2, if_neg h3]
          rw [remove_from_level_ne b a.exchange_code (by rw [hbc, hac]; exact hne.symm)]
          have htail := ih (a :: as) bs (by simp at hlen ⊢; omega) hA hB2
          rw [← htail, List.map_cons]

/-- Applying a strictly ordered snapshot to a side holding another
snapshot's levels computes the (compacted) specification merge, provided
the merged length fits under the cap. -/
theorem update_side_merge_pass {r : Ranking} {maxl : Nat}
    (A B : List ExchangeLevel)
    (hcB : List.Chain' (fun a b => r.isBefore a.price b.price = true) B)
    (hcap : (mergeInto r (A.map AggregateLevel.from_level) B).length ≤ maxl) :
    (AggregateBookSide.mk r maxl (A.map AggregateLevel.from_level)).update_side B =
      .ok ⟨r, maxl, (mergeInto r (A.map AggregateLevel.from_level) B).filter
        (fun l => !l.exchange_levels.isEmpty)⟩ := by
  have hloop := @updateSideData_merge r maxl B [] (A.map AggregateLevel.from_level) none
    (by simpa using hcap) hcB (by intro q hq; cases hq)
  unfold AggregateBookSide.update_side
  dsimp only
  rw [hloop]
  simp [Except.map]

/-- Applying a strictly ordered snapshot to a fresh aggregate book yields
the book holding exactly the snapshot's levels on each side. -/
theorem update_new_book {maxl : Nat} (bu : BookUpdate)
    (hcb : List.Chain' (fun a b => Ranking.GreaterFirst.isBefore a.price b.price = true) bu.bids)
    (hca : List.Chain' (fun a b => Ranking.LessFirst.isBefore a.price b.price = true) bu.asks)
    (hlb : bu.bids.length ≤ maxl) (hla : bu.asks.length ≤ maxl) :
    (AggregateBook.new maxl).update bu =
      .ok ⟨⟨Ranking.GreaterFirst, maxl, bu.bids.map AggregateLevel.from_level⟩,
           ⟨Ranking.LessFirst, maxl, bu.asks.map AggregateLevel.from_level⟩⟩ := by
  unfold AggregateBook.update AggregateBook.new
  dsimp only
  rw [update_side_from_empty bu.bids hcb hlb]
  dsimp only [Except.bind, bind]
  rw [update_side_from_empty bu.asks hca hla]
  rfl

/-- C5 (amended): for two strictly ordered snapshots from two distinct
exchanges whose combined per-side depth fits under the book's cap, applying
them in either order to a freshly created aggregate book yields the same
book.  (With the depth cap binding, order matters — see the
counterexample.) -/
theorem c5_amended_commutative (maxl : Nat) (e1 e2 : String) (bu1 bu2 : BookUpdate)
    (hne : e1 ≠ e2)
    (h1b : ∀ x ∈ bu1.bids, x.exchange_code = e1)
    (h1a : ∀ x ∈ bu1.asks, x.exchange_code = e1)
    (h2b : ∀ x ∈ bu2.bids, x.exchange_code = e2)
    (h2a : ∀ x ∈ bu2.asks, x.exchange_code = e2)
    (hc1b : List.Chain' (fun a b => Ranking.GreaterFirst.isBefore a.price b.price = true) bu1.bids)
    (hc1a : List.Chain' (fun a b => Ranking.LessFirst.isBefore a.price b.price = true) bu1.asks)
    (hc2b : List.Chain' (fun a b => Ranking.GreaterFirst.isBefore a.price b.price = true) bu2.bids)
    (hc2a : List.Chain' (fun a b => Ranking.LessFirst.isBefore a.price b.price = true) bu2.asks)
    (hlb : bu1.bids.length + bu2.bids.length ≤ maxl)
    (hla : bu1.asks.length + bu2.asks.length ≤ maxl) :
    ((AggregateBook.new maxl).update bu1).bind (fun b => b.update bu2) =
      ((AggregateBook.new maxl).update bu2).bind (fun b => b.update bu1) := by
  have hcap1b : (mergeInto Ranking.GreaterFirst
      (bu1.bids.map AggregateLevel.from_level) bu2.bids).length ≤ maxl := by
    have := @mergeInto_length Ranking.GreaterFirst
      ((bu1.bids.map AggregateLevel.from_level).length + bu2.bids.length)
      (bu1.bids.map AggregateLevel.from_level) bu2.bids (le_refl _)
    simp at this
    omega
  have hcap1a : (mergeInto Ranking.LessFirst
      (bu1.asks.map AggregateLevel.from_level) bu2.asks).length ≤ maxl := by
    have := @mergeInto_length Ranking.LessFirst
      ((bu1.asks.map AggregateLevel.from_level).length + bu2.asks.length)
      (bu1.asks.map AggregateLevel.from_level) bu2.asks (le_refl _)
    simp at this
    omega
  have hcap2b : (mergeInto Ranking.GreaterFirst
      (bu2.bids.map AggregateLevel.from_level) bu1.bids).length ≤ maxl := by
    have := @mergeInto_length Ranking.GreaterFirst
      ((bu2.bids.map AggregateLevel.from_level).length + bu1.bids.length)
      (bu2.bids.map AggregateLevel.from_level) bu1.bids (le_refl _)
    simp at this
    omega
  have hcap2a : (mergeInto Ranking.LessFirst
      (bu2.asks.map AggregateLevel.from_level) bu1.asks).length ≤ maxl := by
    have := @mergeInto_length Ranking.LessFirst
      ((bu2.asks.map AggregateLevel.from_level).length + bu1.asks.length)
      (bu2.asks.map AggregateLevel.from_level) bu1.asks (le_refl _)
    simp at this
    omega
  rw [update_new_book bu1 hc1b hc1a (by omega) (by omega)]
  rw [update_new_book bu2 hc2b hc2a (by omega) (by omega)]
  dsimp only [Except.bind, bind]
  unfold AggregateBook.update
  dsimp only
  rw [update_side_merge_pass bu1.bids bu2.bids hc2b hcap1b]
  rw [update_side_merge_pass bu2.bids bu1.bids hc1b hcap2b]
  dsimp only [Except.bind, bind]
  rw [update_side_merge_pass bu1.asks bu2.asks hc2a hcap1a]
  rw [update_side_merge_pass bu2.asks bu1.asks hc1a hcap2a]
  rw [mergeInto_comm e1 e2 hne (bu1.bids.length + bu2.bids.length) bu1.bids bu2.bids
    (le_refl _) h1b h2b]
  rw [mergeInto_comm e1 e2 hne (bu1.asks.length + bu2.asks.length) bu1.asks bu2.asks
    (le_refl _) h1a h2a]

/-- C5 (counterexample): with depth cap 1, snapshot A = bids [(100,1)] from
exchange A and snapshot B = bids [(99,1)] from exchange B — both strictly
ordered — produce different books depending on order: A-then-B keeps only
[100:{A}] (99 is refused by the cap), while B-then-A ends with
[100:{A}, 99:{B}] (the insertion before 99 is not capped). -/
theorem c5_counterexample :
    ((AggregateBook.new 1).update ⟨"A", [⟨"A", 100, 1⟩], []⟩).bind
        (fun b => b.update ⟨"B", [⟨"B", 99, 1⟩], []⟩) =
      .ok ⟨⟨Ranking.GreaterFirst, 1, [⟨100, [⟨"A", 100, 1⟩]⟩]⟩,
           ⟨Ranking.LessFirst, 1, []⟩⟩ ∧
    ((AggregateBook.new 1).update ⟨"B", [⟨"B", 99, 1⟩], []⟩).bind
        (fun b => b.update ⟨"A", [⟨"A", 100, 1⟩], []⟩) =
      .ok ⟨⟨Ranking.GreaterFirst, 1, [⟨100, [⟨"A", 100, 1⟩]⟩, ⟨99, [⟨"B", 99, 1⟩]⟩]⟩,
           ⟨Ranking.LessFirst, 1, []⟩⟩ ∧
    (⟨⟨Ranking.GreaterFirst, 1, [⟨100, [⟨"A", 100, 1⟩]⟩]⟩,
      ⟨Ranking.LessFirst, 1, []⟩⟩ : AggregateBook) ≠
      ⟨⟨Ranking.GreaterFirst, 1, [⟨100, [⟨"A", 100, 1⟩]⟩, ⟨99, [⟨"B", 99, 1⟩]⟩]⟩,
       ⟨Ranking.LessFirst, 1, []⟩⟩ := by
  refine ⟨by decide, by decide, by decide⟩

/-- Concrete snapshot from exchange A for the C5 witness. -/
def c5Bu1 : BookUpdate := ⟨"A", [⟨"A", 100, 1⟩, ⟨"A", 98, 1⟩], [⟨"A", 200, 1⟩]⟩

/-- Concrete snapshot from exchange B for the C5 witness. -/
def c5Bu2 : BookUpdate := ⟨"B", [⟨"B", 99, 2⟩], [⟨"B", 199, 2⟩, ⟨"B", 201, 2⟩]⟩

/-- C5 witness: the amended commutativity theorem applied to two concrete
snapshots from distinct exchanges on a depth-10 book. -/
theorem c5_witness :
    ((AggregateBook.new 10).update c5Bu1).bind (fun b => b.update c5Bu2) =
      ((AggregateBook.new 10).update c5Bu2).bind (fun b => b.update c5Bu1) :=
  c5_amended_commutative 10 "A" "B" c5Bu1 c5Bu2 (by decide)
    (by decide) (by decide) (by decide) (by decide)
    ((chainHolds_iff _ _).mp (by decide)) ((chainHolds_iff _ _).mp (by decide))
    ((chainHolds_iff _ _).mp (by decide)) ((chainHolds_iff _ _).mp (by decide))
    (by decide) (by decide)

theorem traverseLevels_spec {β : Type} (f : BitstampPair → Except String β)
    (P : β → Prop) (hf : ∀ a b, f a = .ok b → P b) :
    ∀ (l : List BitstampPair) (res : List β), traverseLevels f l = .ok res →
      res.length = l.length ∧ ∀ b ∈ res, P b := by
  intro l
  induction l with
  | nil =>
    intro res h
    cases h
    simp
  | cons p ps ih =>
    intro res h
    simp only [traverseLevels] at h
    cases hp : f p with
    | error e => rw [hp] at h; cases h
    | ok b =>
      rw [hp] at h
      cases hps : traverseLevels f ps with
      | error e => rw [hps] at h; cases h
      | ok bs =>
        rw [hps] at h
        cases h
        obtain ⟨hlen, hall⟩ := ih bs hps
        refine ⟨by simp [hlen], ?_⟩
        intro x hx
        rcases List.mem_cons.mp hx with rfl | hx2
        · exact hf p x hp
        · exact hall x hx2

/-- C8 (failing input): a frame whose JSON shape matches a Bitstamp book
update but whose price string is not a number — serde accepts the shape,
then `Decimal::from_str(..).unwrap()` panics, so the decoder is not total.
Recognised reconnect and unparsable frames behave as the claim states. -/
theorem c8_decoder_panics_on_malformed_number :
    read_bitstamp_book_update (.bookUpdate ⟨[⟨"x", "1"⟩], []⟩) =
      .error decimalUnwrapPanic ∧
    read_bitstamp_book_update (.event reconnectEventName) =
      .ok (some .ReconnectionRequest) ∧
    read_bitstamp_book_update (.event "data") = .ok none ∧
    read_bitstamp_book_update .unparsable = .ok none := by
  refine ⟨by decide, by decide, by decide, by decide⟩

/-- C9 (amended): the Bitstamp conversion truncates each side to
`NUM_LEVELS` and tags every level with the fixed code `"bitstamp"`; the
Binance conversion (binance.rs:36-45) tags every level with `"binance"` but
performs no truncation — its output sides have exactly the input lengths. -/
theorem c9_amended_truncation :
    (∀ (raw : BitstampBookUpdateRaw) (bu : BookUpdate),
      bitstampToBookUpdate raw = .ok bu →
      bu.bids.length ≤ NUM_LEVELS ∧ bu.asks.length ≤ NUM_LEVELS ∧
      (∀ l ∈ bu.bids, l.exchange_code = "bitstamp") ∧
      (∀ l ∈ bu.asks, l.exchange_code = "bitstamp")) ∧
    (∀ (raw : BinanceBookUpdateRaw) (bu : BinanceBookUpdateOut),
      binanceToBookUpdate raw = .ok bu →
      bu.bids.length = raw.bids.length ∧ bu.asks.length = raw.asks.length ∧
      (∀ l ∈ bu.bids, l.exchange = "binance") ∧
      (∀ l ∈ bu.asks, l.exchange = "binance")) := by
  constructor
  · intro raw bu h
    unfold bitstampToBookUpdate at h
    cases hb : traverseLevels bitstampPairToLevel (raw.bids.take NUM_LEVELS) with
    | error e => rw [hb] at h; cases h
    | ok bids =>
      rw [hb] at h
      cases ha : traverseLevels bitstampPairToLevel (raw.asks.take NUM_LEVELS) with
      | error e => rw [ha] at h; cases h
      | ok asks =>
        rw [ha] at h
        cases h
        have hcode : ∀ a b, bitstampPairToLevel a = .ok b → b.exchange_code = "bitstamp" := by
          intro a b hab
          unfold bitstampPairToLevel at hab
          cases hp : parseDecimal a.price with
          | none => rw [hp] at hab; cases hab
          | some pr =>
            rw [hp] at hab
            cases hq : parseDecimal a.amount with
            | none => rw [hq] at hab; cases hab
            | some am =>
              rw [hq] at hab
              cases hab
              rfl
        obtain ⟨hlb, hab⟩ := traverseLevels_spec bitstampPairToLevel _ hcode _ bids hb
        obtain ⟨hla, haa⟩ := traverseLevels_spec bitstampPairToLevel _ hcode _ asks ha
        refine ⟨?_, ?_, hab, haa⟩
        · rw [hlb]
          simp [List.length_take]
        · rw [hla]
          simp [List.length_take]
  · intro raw bu h
    unfold binanceToBookUpdate at h
    cases hb : traverseLevels binancePairToLevel raw.bids with
    | error e => rw [hb] at h; cases h
    | ok bids =>
      rw [hb] at h
      cases ha : traverseLevels binancePairToLevel raw.asks with
      | error e => rw [ha] at h; cases h
      | ok asks =>
        rw [ha] at h
        cases h
        have hcode : ∀ a b, binancePairToLevel a = .ok b → b.exchange = "binance" := by
          intro a b hab
          unfold binancePairToLevel at hab
          cases hp : parseDecimal a.price with
          | none => rw [hp] at hab; cases hab
          | some pr =>
            rw [hp] at hab
            cases hq : parseDecimal a.amount with
            | none => rw [hq] at hab; cases hab
            | some am =>
              rw [hq] at hab
              cases hab
              rfl
        obtain ⟨hlb, hab⟩ := traverseLevels_spec binancePairToLevel _ hcode _ bids hb
        obtain ⟨hla, haa⟩ := traverseLevels_spec binancePairToLevel _ hcode _ asks ha
        exact ⟨hlb, hla, hab, haa⟩

/-- Eleven well-formed Binance pairs — one more than the depth N = 10. -/
def c9Pairs : List BitstampPair :=
  [⟨"11", "1"⟩, ⟨"10", "1"⟩, ⟨"9", "1"⟩, ⟨"8", "1"⟩, ⟨"7", "1"⟩, ⟨"6", "1"⟩,
   ⟨"5", "1"⟩, ⟨"4", "1"⟩, ⟨"3", "1"⟩, ⟨"2", "1"⟩, ⟨"1", "1"⟩]

/-- The eleven levels the Binance conversion produces from `c9Pairs`. -/
def c9Levels : List BinanceLevel :=
  [⟨"binance", 11, 1⟩, ⟨"binance", 10, 1⟩, ⟨"binance", 9, 1⟩, ⟨"binance", 8, 1⟩,
   ⟨"binance", 7, 1⟩, ⟨"binance", 6, 1⟩, ⟨"binance", 5, 1⟩, ⟨"binance", 4, 1⟩,
   ⟨"binance", 3, 1⟩, ⟨"binance", 2, 1⟩, ⟨"binance", 1, 1⟩]

/-- C9 (counterexample): a Binance frame with eleven bid levels decodes to
a `BookUpdate` with eleven bid levels — the Binance conversion performs no
`take(NUM_LEVELS)` truncation, contradicting the claimed bound N = 10. -/
theorem c9_counterexample :
    binanceToBookUpdate ⟨7, c9Pairs, []⟩ = .ok ⟨"binance", 7, c9Levels, []⟩ ∧
    NUM_LEVELS < c9Levels.length := by
  refine ⟨by decide, by decide⟩

/-- Concrete Bitstamp raw frame for the C9 witness. -/
def c9Raw : BitstampBookUpdateRaw := ⟨[⟨"99", "10"⟩], [⟨"100", "10"⟩]⟩

/-- Concrete decoded update for the C9 witness. -/
def c9Bu : BookUpdate :=
  ⟨"bitstamp", [⟨"bitstamp", 99, 10⟩], [⟨"bitstamp", 100, 10⟩]⟩

/-- C9 witness: the Bitstamp half of the amended theorem applied to a
concrete frame. -/
theorem c9_witness :
    c9Bu.bids.length ≤ NUM_LEVELS ∧ c9Bu.asks.length ≤ NUM_LEVELS ∧
    (∀ l ∈ c9Bu.bids, l.exchange_code = "bitstamp") ∧
    (∀ l ∈ c9Bu.asks, l.exchange_code = "bitstamp") :=
  c9_amended_truncation.1 c9Raw c9Bu (by decide)
